import Mathlib

/-!
Verification of the JASS API search extension.

The extractor `parseApiDocumentation` in the source scans the fetched text with
the JavaScript regular expression

  /\/\*\*[\s\S]*?\*\/\s*\nnative\s+(\w+)\s+takes\s+([\s\S]*?)\s+returns\s+(\w+)/g

and then, per matched block, re-extracts the name, parameter list and return
type with the inner patterns /native\s+(\w+)/, /takes\s+([\s\S]*?)\s+returns/
and /returns\s+(\w+)/.  We embed the backtracking semantics of these concrete
patterns directly: each regex token becomes a named matching stage built from
lazy-star, greedy-star and literal combinators whose preference order is that
of a JavaScript backtracking engine (lazy: shortest first; greedy: longest
first; leftmost match wins; global matching restarts after each match).

The quickpick session (`fuzzySearch`), the query-change and selection handlers
and the webview description transformation are modelled as explicit state
functions.  The fuzzy-match library (fuse.js) and the network transport are
external capabilities and enter the model as parameters.
-/

/-- The JavaScript `\s` character class (also the set trimmed by `trim()`). -/
def jsSpace (c : Char) : Bool :=
  let n := c.toNat
  n = 0x20 || n = 0x9 || n = 0xA || n = 0xB || n = 0xC || n = 0xD ||
  n = 0xA0 || n = 0x1680 || (0x2000 ≤ n && n ≤ 0x200A) ||
  n = 0x2028 || n = 0x2029 || n = 0x202F || n = 0x205F || n = 0x3000 || n = 0xFEFF

/-- The JavaScript `\w` character class: `[A-Za-z0-9_]`. -/
def jsWord (c : Char) : Bool :=
  let n := c.toNat
  (0x61 ≤ n && n ≤ 0x7A) || (0x41 ≤ n && n ≤ 0x5A) || (0x30 ≤ n && n ≤ 0x39) || n = 0x5F

/-- Literal-sequence matcher: consumes the literal `w` and continues with `k`. -/
def litP (w : List Char) (k : List Char → Option α) (s : List Char) : Option α :=
  if w.isPrefixOf s then k (s.drop w.length) else none

/-- Lazy star over a character predicate: tries the continuation at the current
position first, then extends one character at a time (shortest match first),
exactly like `[\s\S]*?` in a backtracking engine. -/
def starLrun (t : Char → Bool) (k : List Char → Option α) : List Char → Option α
  | [] => k []
  | c :: cs =>
    match k (c :: cs) with
    | some r => some r
    | none => if t c then starLrun t k cs else none

/-- Greedy star over a character predicate: consumes as much as possible first
and backtracks on failure of the continuation, like `\s*` / `\w+` tails. -/
def starGrun (t : Char → Bool) (k : List Char → Option α) : List Char → Option α
  | [] => k []
  | c :: cs =>
    if t c then
      match starGrun t k cs with
      | some r => some r
      | none => k (c :: cs)
    else k (c :: cs)

/-- Greedy plus (`\s+`, `\w+`): at least one character, then a greedy star. -/
def plusRun (t : Char → Bool) (k : List Char → Option α) : List Char → Option α
  | [] => none
  | c :: cs => if t c then starGrun t k cs else none

/-- Leftmost-match search: try the pattern at each start position in order,
including the end-of-string position, as JavaScript regex scanning does. -/
def scanFirst (f : List Char → Option α) : List Char → Option α
  | [] => f []
  | c :: cs =>
    match f (c :: cs) with
    | some r => some r
    | none => scanFirst f cs

def slashStarStar : List Char := ['/', '*', '*']

def starSlash : List Char := ['*', '/']

def natWord : List Char := ['n', 'a', 't', 'i', 'v', 'e']

def nlNative : List Char := '\n' :: natWord

def takesWord : List Char := ['t', 'a', 'k', 'e', 's']

def returnsWord : List Char := ['r', 'e', 't', 'u', 'r', 'n', 's']

def anyc : Char → Bool := fun _ => true

/-- Stage for the end of the outer pattern: the match succeeds, the unconsumed
suffix is returned. -/
def opEnd (s : List Char) : Option (List Char) := some s

/-- Final `(\w+)` of the outer pattern (the return type). -/
def opRty : List Char → Option (List Char) := plusRun jsWord opEnd

/-- The `\s+` between `returns` and the return type. -/
def opRetSp : List Char → Option (List Char) := plusRun jsSpace opRty

/-- The literal `returns` of the outer pattern. -/
def opRetLit : List Char → Option (List Char) := litP returnsWord opRetSp

/-- The `\s+` between the parameter span and `returns`. -/
def opParamSp : List Char → Option (List Char) := plusRun jsSpace opRetLit

/-- The lazy parameter span `([\s\S]*?)` of the outer pattern. -/
def opParams : List Char → Option (List Char) := starLrun anyc opParamSp

/-- The `\s+` after `takes`. -/
def opTakesSp : List Char → Option (List Char) := plusRun jsSpace opParams

/-- The literal `takes`. -/
def opTakes : List Char → Option (List Char) := litP takesWord opTakesSp

/-- The `\s+` between the function name and `takes`. -/
def opNameSp : List Char → Option (List Char) := plusRun jsSpace opTakes

/-- The `(\w+)` function name of the outer pattern. -/
def opNameW : List Char → Option (List Char) := plusRun jsWord opNameSp

/-- The `\s+` after `native`. -/
def opNatSp : List Char → Option (List Char) := plusRun jsSpace opNameW

/-- The literal `\nnative` (the required line break and keyword). -/
def opNat : List Char → Option (List Char) := litP nlNative opNatSp

/-- The `\s*` between the closing comment delimiter and the line break. -/
def opWs : List Char → Option (List Char) := starGrun jsSpace opNat

/-- The literal `*/` closing the doc comment. -/
def opClose : List Char → Option (List Char) := litP starSlash opWs

/-- The lazy comment body `[\s\S]*?`. -/
def opBody : List Char → Option (List Char) := starLrun anyc opClose

/-- The whole outer pattern, anchored at the current position; returns the
suffix remaining after the match. -/
def opMatch : List Char → Option (List Char) := litP slashStarStar opBody

/-- Leftmost application of the outer pattern: the suffix at which the match
starts, together with the suffix remaining after it. -/
def findFirstO : List Char → Option (List Char × List Char) :=
  scanFirst fun d => (opMatch d).map fun r => (d, r)

/-- One global-matching pass (`String.match` with the `g` flag): collect
non-overlapping matches left to right, restarting after each match; an empty
match advances by one character.  Fuel bounds the recursion. -/
def gmatchAux : Nat → List Char → List (List Char)
  | 0, _ => []
  | n + 1, s =>
    match findFirstO s with
    | none => []
    | some (s₀, rest) =>
      if s₀.length - rest.length = 0 then [] :: gmatchAux n (s₀.drop 1)
      else s₀.take (s₀.length - rest.length) :: gmatchAux n rest

def gmatchO (s : List Char) : List (List Char) := gmatchAux (s.length + 1) s

/-- Capture of `(\w+)` with an always-succeeding continuation: the maximal
word-character run, which must be non-empty. -/
def npGrab (s : List Char) : Option (List Char) :=
  let w := s.takeWhile jsWord
  if w.isEmpty then none else some w

/-- The inner pattern `/native\s+(\w+)/` at the current position, returning
group 1. -/
def npAt : List Char → Option (List Char) := litP natWord (plusRun jsSpace npGrab)

/-- Leftmost match of `/native\s+(\w+)/`, returning group 1. -/
def findNp : List Char → Option (List Char) := scanFirst npAt

/-- The `\s+returns` continuation after the lazy group of the inner `takes` pattern. -/
def tpAfter : List Char → Option Unit :=
  plusRun jsSpace (litP returnsWord fun _ => some ())

/-- The lazy group `([\s\S]*?)` of `/takes\s+([\s\S]*?)\s+returns/`: shortest
span whose continuation `\s+returns` succeeds; returns the captured span. -/
def tpLazy : List Char → Option (List Char)
  | [] => match tpAfter [] with | some _ => some [] | none => none
  | c :: cs =>
    match tpAfter (c :: cs) with
    | some _ => some []
    | none => (tpLazy cs).map (c :: ·)

/-- The inner pattern `/takes\s+([\s\S]*?)\s+returns/` at the current
position, returning group 1. -/
def tpAt : List Char → Option (List Char) := litP takesWord (plusRun jsSpace tpLazy)

/-- Leftmost match of `/takes\s+([\s\S]*?)\s+returns/`, returning group 1. -/
def findTp : List Char → Option (List Char) := scanFirst tpAt

/-- The inner pattern `/returns\s+(\w+)/` at the current position, returning
group 1. -/
def rpAt : List Char → Option (List Char) := litP returnsWord (plusRun jsSpace npGrab)

/-- Leftmost match of `/returns\s+(\w+)/`, returning group 1. -/
def findRp : List Char → Option (List Char) := scanFirst rpAt

/-- JavaScript `String.prototype.trim`. -/
def trimJs (l : List Char) : List Char :=
  ((l.dropWhile jsSpace).reverse.dropWhile jsSpace).reverse

/-- One extracted API entry (name, display signature, raw matched block). -/
structure ApiEntry where
  name : String
  signature : String
  description : String
deriving DecidableEq, Repr

/-- The source line `match.match(/native\s+(\w+)/)?.[1] || "Unknown Function"`. -/
def extractName (m : List Char) : String :=
  match findNp m with
  | some c => if c.isEmpty then "Unknown Function" else String.mk c
  | none => "Unknown Function"

/-- The source line `match.match(/takes\s+([\s\S]*?)\s+returns/)?.[1]?.trim() || "nothing"`. -/
def extractParams (m : List Char) : String :=
  match findTp m with
  | some c => if (trimJs c).isEmpty then "nothing" else String.mk (trimJs c)
  | none => "nothing"

/-- The source line `match.match(/returns\s+(\w+)/)?.[1] || "nothing"`. -/
def extractRet (m : List Char) : String :=
  match findRp m with
  | some c => if c.isEmpty then "nothing" else String.mk c
  | none => "nothing"

/-- Build one `ApiEntry` from one matched block, as the `matches.map` body
does: `{ name, signature: `${name}(${parameters}): ${returnType}`,
description: match }`. -/
def mkEntry (m : List Char) : ApiEntry :=
  { name := extractName m
    signature := extractName m ++ "(" ++ extractParams m ++ "): " ++ extractRet m
    description := String.mk m }

/-- The join `texts.join("\n")` of the fetched texts. -/
def joinTexts : List String → String
  | [] => ""
  | [t] => t
  | t :: ts => t ++ "\n" ++ joinTexts ts

def parseChars (l : List Char) : List ApiEntry := (gmatchO l).map mkEntry

/-- The extractor `parseApiDocumentation(texts)` from the source: join the
fetched texts with a newline, run the global outer pattern, and map every
match to an entry (`if (!matches) return []` is the empty-list case). -/
def parseApiDocumentation (texts : List String) : List ApiEntry :=
  parseChars (joinTexts texts).data

/-- One quickpick display row (`vscode.QuickPickItem`): label, description and
optional detail. -/
structure Item where
  label : String
  descr : String
  detail : Option String
deriving DecidableEq, Repr

def loadingItem : Item := { label := "Loading...", descr := "Fetching documentation", detail := some "N/A" }

def fetchFailItem (e : String) : Item :=
  { label := "Failed to fetch api data", descr := "Check network / urls", detail := some e }

def emptyItem : Item := { label := "No functions found", descr := "Api docs are empty", detail := none }

def noMatchesItem : Item := { label := "no matches", descr := "try different terms", detail := none }

/-- The fan-in `Promise.all(GITHUB_URLS.map(url => axios.get(url)))`: the per-URL fetch
outcomes in URL order; the whole load rejects as soon as any one rejects,
otherwise it resolves to the bodies in URL order. -/
def loadAll : List (Except String String) → Except String (List String)
  | [] => .ok []
  | .error e :: _ => .error e
  | .ok t :: rest => (loadAll rest).map (t :: ·)

/-- Convert a row set to quickpick items (`toItems`), truncating the displayed
projection to the first 200 rows (`rows.slice(0, 200)`), with
`label = name`, `description = signature`, `detail = undefined`. -/
def toItems (rows : List ApiEntry) : List Item :=
  (rows.take 200).map fun r => { label := r.name, descr := r.signature, detail := none }

/-- The state a running search session closes over: the full entry set, the
data the fuse index was built over (if built), the current display rows, and
whether the quickpick has been hidden. -/
structure SessState where
  apiData : List ApiEntry
  fuseData : Option (List ApiEntry)
  items : List Item
  hidden : Bool
deriving DecidableEq, Repr

/-- Result of one `fuzzySearch()` invocation up to the point where the
handlers are registered.  `writesAfterDismissal` records every assignment to
`qp.items` the continuation performs after the user has dismissed the
quickpick (dismissal during the awaited fetch). -/
structure RunResult where
  items : List Item
  busy : Bool
  indexBuilt : Bool
  fuseData : Option (List ApiEntry)
  apiData : List ApiEntry
  writesAfterDismissal : List (List Item)
deriving DecidableEq, Repr

/-- The body of `fuzzySearch()` from quickpick creation to the post-load
display, parameterised by the fetch outcomes and by whether the user dismissed
the quickpick while the fetch was pending.  The code awaits the fetch and then
unconditionally assigns `qp.busy` and `qp.items` in every branch: there is no
generation counter or abandon flag, so those assignments happen even after a
dismissal. -/
def fuzzySearchRun (dismissedDuringFetch : Bool) (rs : List (Except String String)) : RunResult :=
  let logWrite := fun (w : List Item) =>
    if dismissedDuringFetch then [w] else ([] : List (List Item))
  match loadAll rs with
  | .error e =>
    { items := [fetchFailItem e], busy := false, indexBuilt := false, fuseData := none,
      apiData := [], writesAfterDismissal := logWrite [fetchFailItem e] }
  | .ok texts =>
    let api := parseApiDocumentation texts
    if api.isEmpty then
      { items := [emptyItem], busy := false, indexBuilt := false, fuseData := none,
        apiData := api, writesAfterDismissal := logWrite [emptyItem] }
    else
      { items := toItems api, busy := false, indexBuilt := true, fuseData := some api,
        apiData := api, writesAfterDismissal := logWrite (toItems api) }

/-- The `qp.onDidChangeValue` handler: empty-after-trim queries redisplay the
full (truncated) entry list; otherwise the fuzzy result is displayed, or the
"no matches" placeholder when it is empty.  The fuzzy searcher (fuse.js) is a
parameter. -/
def onDidChangeValue (search : String → List ApiEntry) (st : SessState) (value : String) :
    SessState :=
  if (trimJs value.data).isEmpty then { st with items := toItems st.apiData }
  else
    let results := search value
    { st with items := if results.isEmpty then [noMatchesItem] else toItems results }

/-- The `qp.onDidChangeSelection` handler: look up the first entry of the full
entry set whose name equals the label of the picked row, hand it to the detail
renderer (first component), and hide the quickpick. -/
def onDidChangeSelection (st : SessState) (sel : List Item) : Option ApiEntry × SessState :=
  match sel.head? with
  | none => (none, st)
  | some picked =>
    (st.apiData.find? (fun r => r.name == picked.label), { st with hidden := true })

/-- Strip the trailing whitespace run, as `line.replace` with the pattern `\s+$` does. -/
def stripTrail (l : List Char) : List Char :=
  (l.reverse.dropWhile jsSpace).reverse

/-- JavaScript `split("\n")`. -/
def splitNl : List Char → List (List Char)
  | [] => [[]]
  | '\n' :: rest => [] :: splitNl rest
  | c :: rest =>
    match splitNl rest with
    | [] => [[c]]
    | l :: ls => (c :: l) :: ls

/-- The join with a line break, on character lists. -/
def joinNl : List (List Char) → List Char
  | [] => []
  | [l] => l
  | l :: ls => l ++ '\n' :: joinNl ls

def spanOpen : List Char := "<span class=\"annotation\">".data

def spanClose : List Char := "</span>".data

/-- Fuel-driven scan for `wrapAts`; the fuel is the input length, and every
step consumes at least one character, so the fuel never runs out. -/
def wrapAtsF : Nat → List Char → List Char
  | 0, _ => []
  | _ + 1, [] => []
  | n + 1, c :: rest =>
    if c = '@' then
      let w := rest.takeWhile jsWord
      if w.isEmpty then c :: wrapAtsF n rest
      else spanOpen ++ ('@' :: w) ++ spanClose ++ wrapAtsF n (rest.drop w.length)
    else c :: wrapAtsF n rest

/-- Wrap every maximal `@word` token in the style marker, as the global
replace of the pattern `(@\w+)` by the span-wrapped group does. -/
def wrapAts (l : List Char) : List Char := wrapAtsF l.length l

/-- The `highlightedDescription` pipeline of `showFunctionDetails`: split into
lines, strip trailing whitespace, drop lines that START with the comment
delimiters, wrap annotation tokens, rejoin. -/
def highlightedDescription (desc : String) : String :=
  String.mk (joinNl ((((splitNl desc.data).map stripTrail).filter
    (fun l => !(slashStarStar.isPrefixOf l) && !(starSlash.isPrefixOf l))).map wrapAts))

/-- The description transformation exactly as claim C8 words it: lines that
are EXACTLY the delimiter lines are dropped, all other lines are kept. -/
def claimDescription (desc : String) : String :=
  String.mk (joinNl (((splitNl desc.data).foldr
    (fun line acc =>
      let t := stripTrail line
      if t = slashStarStar || t = starSlash then acc else wrapAts t :: acc) [])))

/-- The amended description transformation, following the amended claim: drop
every line that STARTS with `/**` or `*/` (after the per-line trailing
whitespace strip), keep and annotate the rest, rejoin with line breaks. -/
def amendedDescription (desc : String) : String :=
  String.mk (joinNl (((splitNl desc.data).foldr
    (fun line acc =>
      let t := stripTrail line
      if slashStarStar.isPrefixOf t || starSlash.isPrefixOf t then acc
      else wrapAts t :: acc) [])))

/-- Does `pat` occur as a contiguous subsequence of the list? -/
def containsSeq (pat : List Char) : List Char → Bool
  | [] => pat.isEmpty
  | c :: cs => pat.isPrefixOf (c :: cs) || containsSeq pat cs

/-- Is the list non-empty with a non-whitespace head? -/
def headNotSpace : List Char → Bool
  | [] => false
  | c :: _ => !jsSpace c

/-- An abstract well-formed doc-comment-plus-declaration block:
`/**<body>*/\nnative <name> takes <params> returns <rty>`. -/
structure Block where
  body : List Char
  name : List Char
  params : List Char
  rty : List Char
deriving DecidableEq, Repr

/-- Well-formedness of a block, in the sense the claims use "well-formed": the
comment body contains no premature `*/` terminator; the name and return type
are non-empty identifier (word-character) strings; the parameter text is
non-empty, neither starts nor ends with whitespace, and does not contain the
keyword `returns`. -/
def WFb (b : Block) : Bool :=
  !containsSeq starSlash b.body &&
  !b.name.isEmpty && b.name.all jsWord &&
  headNotSpace b.params && headNotSpace b.params.reverse &&
  !containsSeq returnsWord b.params &&
  !b.rty.isEmpty && b.rty.all jsWord

/-- The text of a block followed by an arbitrary rest `R` of the input. -/
def renderR (b : Block) (R : List Char) : List Char :=
  slashStarStar ++ (b.body ++ (starSlash ++ ('\n' ::
    (natWord ++ (' ' :: (b.name ++ (' ' :: (takesWord ++ (' ' ::
      (b.params ++ (' ' :: (returnsWord ++ (' ' :: (b.rty ++ R))))))))))))))

/-- The block text from the `returns` keyword on, followed by the rest `R`. -/
def tail4 (b : Block) (R : List Char) : List Char := returnsWord ++ (' ' :: (b.rty ++ R))

/-- The block text from the parameter span on, followed by the rest `R`. -/
def tail3 (b : Block) (R : List Char) : List Char := b.params ++ (' ' :: tail4 b R)

/-- The block text from the `takes` keyword on, followed by the rest `R`. -/
def tail2 (b : Block) (R : List Char) : List Char := takesWord ++ (' ' :: tail3 b R)

/-- The block text from the declared name on, followed by the rest `R`. -/
def tail1 (b : Block) (R : List Char) : List Char := b.name ++ (' ' :: tail2 b R)

/-- The block text from the `native` keyword on, followed by the rest `R`. -/
def tail0 (b : Block) (R : List Char) : List Char := natWord ++ (' ' :: tail1 b R)

/-- The text of one block. -/
def render (b : Block) : List Char := renderR b []

/-- The text of one block, as a string. -/
def renderS (b : Block) : String := String.mk (render b)

/-- The part of the text of a block strictly before the `native` keyword of the
declaration: the doc comment and the line break. -/
def preB (b : Block) : List Char :=
  slashStarStar ++ (b.body ++ (starSlash ++ ['\n']))

/-- Well-formedness for the name claim: a well-formed block whose doc-comment
part contains no occurrence of the word `native`. -/
def WFn (b : Block) : Bool :=
  WFb b && !containsSeq natWord (preB b)

/-- A concrete well-formed block used by witnesses. -/
def blockA : Block :=
  { body := " doc ".data, name := "FooBar".data, params := "integer a".data,
    rty := "boolean".data }

/-- Another concrete well-formed block used by witnesses. -/
def blockB : Block :=
  { body := " x ".data, name := "Baz".data, params := "real r".data,
    rty := "nothing".data }

def sampleEntry : ApiEntry :=
  { name := "Foo", signature := "Foo(nothing): nothing", description := "d" }

def dupA : ApiEntry := { name := "Dup", signature := "Dup(x): a", description := "first" }

def dupB : ApiEntry := { name := "Dup", signature := "Dup(y): b", description := "second" }

theorem jsWord_not_space {c : Char} (h : jsWord c = true) : jsSpace c = false := by
  rw [Bool.eq_false_iff]
  intro hs
  simp only [jsWord, Bool.or_eq_true, Bool.and_eq_true, decide_eq_true_eq] at h
  simp only [jsSpace, Bool.or_eq_true, Bool.and_eq_true, decide_eq_true_eq] at hs
  omega

/-- C1: the extractor on the single literal input text yields exactly one
entry with the expected name and signature. -/
theorem c1_single_literal :
    parseApiDocumentation ["/** doc */\nnative FooBar takes integer a returns boolean"] =
      [{ name := "FooBar"
         signature := "FooBar(integer a): boolean"
         description := "/** doc */\nnative FooBar takes integer a returns boolean" }] := by
  decide

/-- C4: the extractor on the parameterless literal input yields the
`Baz(nothing): nothing` signature; and in general whenever the inner
`takes`-pattern capture is absent or trims to empty, the parameters component
defaults to the literal string `nothing`. -/
theorem c4_params_default :
    (parseApiDocumentation ["/** doc */\nnative Baz takes nothing returns nothing"] =
      [{ name := "Baz"
         signature := "Baz(nothing): nothing"
         description := "/** doc */\nnative Baz takes nothing returns nothing" }]) ∧
    ∀ m : List Char,
      (findTp m = none ∨ ∃ c, findTp m = some c ∧ (trimJs c).isEmpty = true) →
      extractParams m = "nothing" := by
  constructor
  · decide
  · intro m h
    rcases h with h | ⟨c, hc, ht⟩
    · simp [extractParams, h]
    · simp [extractParams, hc, ht]

/-- Witness for the conditional part of C4 at a concrete block with no
`takes ... returns` span. -/
theorem c4_params_default_witness :
    (findTp "xyz".data = none ∨
      ∃ c, findTp "xyz".data = some c ∧ (trimJs c).isEmpty = true) ∧
    extractParams "xyz".data = "nothing" :=
  ⟨Or.inl (by decide), c4_params_default.2 "xyz".data (Or.inl (by decide))⟩

theorem loadAll_isError {rs : List (Except String String)}
    (h : ∃ e, Except.error e ∈ rs) : ∃ e, loadAll rs = .error e := by
  induction rs with
  | nil => simp at h
  | cons r rest ih =>
    match r with
    | .error e => exact ⟨e, rfl⟩
    | .ok t =>
      obtain ⟨e, he⟩ := h
      have hmem : Except.error e ∈ rest := by
        rcases List.mem_cons.mp he with h1 | h2
        · exact absurd h1 (by simp)
        · exact h2
      obtain ⟨e', he'⟩ := ih ⟨e, hmem⟩
      exact ⟨e', by simp [loadAll, he', Except.map]⟩

/-- C5: if any single URL fetch fails, the whole load fails: the session shows
exactly one fetch-failure placeholder row carrying the error detail, no search
index is built, and no partial results are kept. -/
theorem c5_fetch_failure (d : Bool) (rs : List (Except String String))
    (h : ∃ e, Except.error e ∈ rs) :
    ∃ e, loadAll rs = .error e ∧
      (fuzzySearchRun d rs).items = [fetchFailItem e] ∧
      (fuzzySearchRun d rs).indexBuilt = false ∧
      (fuzzySearchRun d rs).fuseData = none ∧
      (fuzzySearchRun d rs).apiData = [] := by
  obtain ⟨e, he⟩ := loadAll_isError h
  refine ⟨e, he, ?_, ?_, ?_, ?_⟩ <;> simp [fuzzySearchRun, he]

/-- Witness for C5 at a single rejecting fetch. -/
theorem c5_fetch_failure_witness :
    (∃ e, Except.error e ∈ ([Except.error "boom"] : List (Except String String))) ∧
    ∃ e, loadAll [Except.error "boom"] = .error e ∧
      (fuzzySearchRun false [Except.error "boom"]).items = [fetchFailItem e] ∧
      (fuzzySearchRun false [Except.error "boom"]).indexBuilt = false ∧
      (fuzzySearchRun false [Except.error "boom"]).fuseData = none ∧
      (fuzzySearchRun false [Except.error "boom"]).apiData = [] :=
  ⟨⟨"boom", by simp⟩, c5_fetch_failure false [.error "boom"] ⟨"boom", by simp⟩⟩

/-- C6: with a non-empty entry set and a query empty after trimming, the
displayed projection is the first 200 entries in extraction order, and the
handler leaves the entry set and the index data untouched. -/
theorem c6_empty_query (search : String → List ApiEntry) (st : SessState) (v : String)
    (hne : st.apiData ≠ []) (hv : (trimJs v.data).isEmpty = true) :
    (onDidChangeValue search st v).items =
      (st.apiData.take 200).map
        (fun r => { label := r.name, descr := r.signature, detail := none }) ∧
    (onDidChangeValue search st v).apiData = st.apiData ∧
    (onDidChangeValue search st v).fuseData = st.fuseData := by
  refine ⟨?_, ?_, ?_⟩ <;> simp [onDidChangeValue, hv, toItems]

/-- Witness for C6 at a one-entry session and the empty query. -/
theorem c6_empty_query_witness :
    ([sampleEntry] ≠ ([] : List ApiEntry)) ∧
    (trimJs "".data).isEmpty = true ∧
    (onDidChangeValue (fun _ => []) ⟨[sampleEntry], some [sampleEntry], [], false⟩ "").items =
      (([sampleEntry] : List ApiEntry).take 200).map
        (fun r => { label := r.name, descr := r.signature, detail := none }) :=
  ⟨by decide, by decide,
    (c6_empty_query (fun _ => []) ⟨[sampleEntry], some [sampleEntry], [], false⟩ ""
      (by decide) (by decide)).1⟩

/-- C7: whenever the handler consults the fuzzy searcher (non-empty trimmed
query) and it returns zero ranked results, exactly one "no matches"
placeholder row is displayed, and the entry set and index data are left
unchanged. -/
theorem c7_no_matches (search : String → List ApiEntry) (st : SessState) (v : String)
    (hv : (trimJs v.data).isEmpty = false) (hz : search v = []) :
    (onDidChangeValue search st v).items = [noMatchesItem] ∧
    (onDidChangeValue search st v).apiData = st.apiData ∧
    (onDidChangeValue search st v).fuseData = st.fuseData := by
  refine ⟨?_, ?_, ?_⟩ <;> simp [onDidChangeValue, hv, hz]

/-- Witness for C7 at a query with no fuzzy results. -/
theorem c7_no_matches_witness :
    (trimJs "qq".data).isEmpty = false ∧
    (onDidChangeValue (fun _ => []) ⟨[sampleEntry], some [sampleEntry], [], false⟩ "qq").items =
      [noMatchesItem] :=
  ⟨by decide,
    (c7_no_matches (fun _ => []) ⟨[sampleEntry], some [sampleEntry], [], false⟩ "qq"
      (by decide) rfl).1⟩

/-- C8 counterexample: the renderer drops every line STARTING with a comment
delimiter, so on a block whose first line is `/** doc */` the output of the
code differs from the transformation the claim words (drop only the lines
that are exactly a delimiter). -/
theorem c8_desc_counterexample :
    highlightedDescription "/** doc */\nnative Foo takes nothing returns nothing" ≠
      claimDescription "/** doc */\nnative Foo takes nothing returns nothing" := by
  decide

/-- C8 amended: the description transformation of the renderer equals: split into
lines; strip trailing whitespace per line; drop the lines that START with
`/**` or `*/`; wrap `@word` tokens in the annotation marker; rejoin with line
breaks. -/
theorem c8_desc_amended (desc : String) :
    highlightedDescription desc = amendedDescription desc := by
  unfold highlightedDescription amendedDescription
  congr 1
  congr 1
  induction splitNl desc.data with
  | nil => rfl
  | cons l ls ih =>
    simp only [List.map_cons, List.foldr_cons]
    cases hb1 : slashStarStar.isPrefixOf (stripTrail l) <;>
      cases hb2 : starSlash.isPrefixOf (stripTrail l) <;>
        simp [List.filter_cons, hb1, hb2, ih]

/-- C9 (code bug): in the interleaving where the user dismisses the quickpick
while the fetch is pending, the continuation still performs at least one
display write after the dismissal, for every fetch outcome: the code has no
generation counter or abandon flag guarding the post-await assignments. -/
theorem c9_stale_write (rs : List (Except String String)) :
    (fuzzySearchRun true rs).writesAfterDismissal ≠ [] := by
  unfold fuzzySearchRun
  cases h : loadAll rs with
  | error e => simp
  | ok texts => by_cases hemp : (parseApiDocumentation texts).isEmpty <;> simp [hemp]

theorem find?_eq_some_split {p : ApiEntry → Bool} :
    ∀ {l : List ApiEntry} {e}, l.find? p = some e →
      p e = true ∧ ∃ u v, l = u ++ e :: v ∧ ∀ x ∈ u, p x = false := by
  intro l
  induction l with
  | nil => intro e h; simp [List.find?] at h
  | cons a as ih =>
    intro e h
    by_cases hp : p a = true
    · rw [List.find?_cons_of_pos _ hp] at h
      obtain rfl : a = e := by simpa using h
      exact ⟨hp, [], as, rfl, by simp⟩
    · rw [List.find?_cons_of_neg _ hp] at h
      obtain ⟨hpe, u, v, rfl, hu⟩ := ih h
      refine ⟨hpe, a :: u, v, rfl, ?_⟩
      intro x hx
      rcases List.mem_cons.mp hx with rfl | hx'
      · simpa using hp
      · exact hu x hx'

/-- C10: on a selection event, the entry handed to the detail renderer is the
first entry in extraction order of the FULL entry set whose name equals the
label of the picked row, so earlier duplicates always win regardless of which row
was selected. -/
theorem c10_selection_first (st : SessState) (sel : List Item) (picked : Item)
    (h : sel.head? = some picked) :
    (onDidChangeSelection st sel).1 =
      st.apiData.find? (fun r => r.name == picked.label) ∧
    ∀ e, (onDidChangeSelection st sel).1 = some e →
      e.name = picked.label ∧
      ∃ u v, st.apiData = u ++ e :: v ∧ ∀ x ∈ u, x.name ≠ picked.label := by
  have hfst : (onDidChangeSelection st sel).1 =
      st.apiData.find? (fun r => r.name == picked.label) := by
    simp [onDidChangeSelection, h]
  refine ⟨hfst, ?_⟩
  intro e he
  rw [hfst] at he
  obtain ⟨hpe, u, v, hl, hu⟩ := find?_eq_some_split he
  refine ⟨by simpa using hpe, u, v, hl, ?_⟩
  intro x hx
  simpa using hu x hx

/-- Witness for C10: with two entries sharing the name `Dup`, selecting the
row that displays the SECOND duplicate still hands the FIRST duplicate to the
renderer. -/
theorem c10_selection_first_witness :
    (([({ label := "Dup", descr := "Dup(y): b", detail := none } : Item)]).head? =
      some ({ label := "Dup", descr := "Dup(y): b", detail := none } : Item)) ∧
    (onDidChangeSelection ⟨[dupA, dupB], none, [], false⟩
      [{ label := "Dup", descr := "Dup(y): b", detail := none }]).1 = some dupA := by
  refine ⟨rfl, ?_⟩
  rw [(c10_selection_first ⟨[dupA, dupB], none, [], false⟩
    [{ label := "Dup", descr := "Dup(y): b", detail := none }]
    { label := "Dup", descr := "Dup(y): b", detail := none } rfl).1]
  decide

theorem isPrefixOf_append_self (l s : List Char) : l.isPrefixOf (l ++ s) = true := by
  induction l with
  | nil => cases s <;> rfl
  | cons a as ih => simp [List.isPrefixOf, ih]

theorem isPrefixOf_self (l : List Char) : l.isPrefixOf l = true := by
  have := isPrefixOf_append_self l []
  simpa using this

theorem litP_append (w s : List Char) (k : List Char → Option α) :
    litP w k (w ++ s) = k s := by
  simp [litP, isPrefixOf_append_self, List.drop_left]

theorem litP_not {w s : List Char} (h : w.isPrefixOf s = false) (k : List Char → Option α) :
    litP w k s = none := by
  simp [litP, h]

theorem eq_of_isPrefixOf_of_le {a b : List Char} (h : a.isPrefixOf b = true)
    (hl : b.length ≤ a.length) : a = b := by
  induction a generalizing b with
  | nil => cases b with
    | nil => rfl
    | cons x xs => simp at hl
  | cons x xs ih =>
    cases b with
    | nil => simp [List.isPrefixOf] at h
    | cons y ys =>
      simp only [List.isPrefixOf, Bool.and_eq_true] at h
      obtain rfl : x = y := eq_of_beq h.1
      have := ih h.2 (by simpa using hl)
      rw [this]

theorem isPrefixOf_append_split {pat d w : List Char} (h : pat.isPrefixOf (d ++ w) = true) :
    pat.isPrefixOf d = true ∨
      (d.isPrefixOf pat = true ∧ (pat.drop d.length).isPrefixOf w = true) := by
  induction d generalizing pat with
  | nil => exact Or.inr ⟨by simp [List.isPrefixOf], by simpa using h⟩
  | cons x xs ih =>
    cases pat with
    | nil => exact Or.inl rfl
    | cons p ps =>
      simp only [List.cons_append, List.isPrefixOf, Bool.and_eq_true] at h
      obtain ⟨hpx, h2⟩ := h
      obtain rfl : p = x := eq_of_beq hpx
      rcases ih h2 with h3 | ⟨h4, h5⟩
      · exact Or.inl (by simp [List.isPrefixOf, h3])
      · refine Or.inr ⟨by simp [List.isPrefixOf, h4], ?_⟩
        simpa using h5

theorem contains_false_not_mem {l : List Char} {c : Char} (h : l.contains c = false) :
    c ∉ l := by
  induction l with
  | nil => simp
  | cons a as ih =>
    intro hm
    rcases List.mem_cons.mp hm with rfl | hm'
    · simp [List.contains, List.elem] at h
    · have : as.contains c = false := by
        by_cases hac : (c == a) = true
        · simp [List.contains, List.elem, hac] at h
        · simp only [List.contains, List.elem] at h
          rw [Bool.not_eq_true] at hac
          rw [hac] at h
          simpa [List.contains, List.elem] using h
      exact ih this hm'

theorem boundary_no {pat d : List Char} {c : Char} {t : List Char}
    (hc : (pat.drop 1).contains c = false) (hne : d ≠ [])
    (h : pat.isPrefixOf (d ++ c :: t) = true) : pat.isPrefixOf d = true := by
  rcases isPrefixOf_append_split h with h1 | ⟨h2, h3⟩
  · exact h1
  · cases hd : pat.drop d.length with
    | nil =>
      have hlen : pat.length ≤ d.length := by
        simpa using (List.drop_eq_nil_iff).mp hd
      have : d = pat := eq_of_isPrefixOf_of_le h2 hlen
      rw [this]
      exact isPrefixOf_self pat
    | cons q qs =>
      exfalso
      have hqc : q = c := by
        rw [hd] at h3
        simp only [List.isPrefixOf, Bool.and_eq_true] at h3
        exact eq_of_beq h3.1
      have hdpos : 1 ≤ d.length := by
        cases d with
        | nil => exact absurd rfl hne
        | cons _ _ => simp
      have hdrop : pat.drop d.length = (pat.drop 1).drop (d.length - 1) := by
        rw [List.drop_drop]
        congr 1
        omega
      have hq_mem : q ∈ pat.drop 1 := by
        have h5 : q ∈ (pat.drop 1).drop (d.length - 1) := by
          rw [← hdrop, hd]; simp
        exact List.drop_subset _ _ h5
      rw [hqc] at hq_mem
      exact contains_false_not_mem hc hq_mem

theorem containsSeq_of_suffix {pat u d l : List Char} (hl : u ++ d = l)
    (hp : pat.isPrefixOf d = true) : containsSeq pat l = true := by
  induction u generalizing l with
  | nil =>
    subst hl
    cases d with
    | nil =>
      cases pat with
      | nil => rfl
      | cons _ _ => simp [List.isPrefixOf] at hp
    | cons c cs => simp [containsSeq, hp]
  | cons a u' ih =>
    subst hl
    simp [containsSeq, ih rfl]

/-- Predicate `headStop t v`: the greedy star over `t` cannot advance into `v`. -/
def headStop (t : Char → Bool) (v : List Char) : Prop :=
  v = [] ∨ ∃ c cs, v = c :: cs ∧ t c = false

theorem starL_skip {k : List Char → Option α} {t : Char → Bool} {u v : List Char}
    (ht : ∀ x ∈ u, t x = true)
    (hk : ∀ u₁ d, u₁ ++ d = u → d ≠ [] → k (d ++ v) = none) :
    starLrun t k (u ++ v) = starLrun t k v := by
  induction u with
  | nil => rfl
  | cons c cs ih =>
    have h0 : k (c :: (cs ++ v)) = none := by
      have := hk [] (c :: cs) rfl (by simp)
      simpa using this
    have hstep : starLrun t k (c :: (cs ++ v)) =
        (match k (c :: (cs ++ v)) with
          | some r => some r
          | none => if t c then starLrun t k (cs ++ v) else none) := rfl
    rw [List.cons_append, hstep, h0]
    simp only [ht c (by simp), if_true]
    exact ih (fun x hx => ht x (by simp [hx]))
      (fun u₁ d h hd => hk (c :: u₁) d (by simp [← h]) hd)

theorem starL_hit {k : List Char → Option α} {t : Char → Bool} {v : List Char} {r : α}
    (h : k v = some r) : starLrun t k v = some r := by
  cases v with
  | nil => simpa [starLrun] using h
  | cons c cs => simp [starLrun, h]

theorem starG_stop {k : List Char → Option α} {t : Char → Bool} {v : List Char}
    (h : headStop t v) : starGrun t k v = k v := by
  rcases h with rfl | ⟨c, cs, rfl, hc⟩
  · rfl
  · simp [starGrun, hc]

theorem starG_exact {k : List Char → Option α} {t : Char → Bool} {u v : List Char} {r : α}
    (hu : ∀ x ∈ u, t x = true) (hv : headStop t v) (hk : k v = some r) :
    starGrun t k (u ++ v) = some r := by
  induction u with
  | nil => rw [List.nil_append, starG_stop hv, hk]
  | cons c cs ih =>
    have h2 := ih (fun x hx => hu x (by simp [hx]))
    simp only [List.cons_append, starGrun]
    rw [hu c (by simp)]
    simp [h2]

theorem starG_none {k : List Char → Option α} {t : Char → Bool} {s : List Char}
    (h : ∀ u v, u ++ v = s → (∀ x ∈ u, t x = true) → k v = none) :
    starGrun t k s = none := by
  induction s with
  | nil => simpa [starGrun] using h [] [] rfl (by simp)
  | cons c cs ih =>
    have h3 : k (c :: cs) = none := h [] (c :: cs) rfl (by simp)
    cases hc : t c with
    | true =>
      have h2 : starGrun t k cs = none := by
        apply ih
        intro u v huv hu
        refine h (c :: u) v (by simp [huv]) ?_
        intro x hx
        rcases List.mem_cons.mp hx with rfl | hx'
        · exact hc
        · exact hu x hx'
      simp [starGrun, hc, h2, h3]
    | false => simp [starGrun, hc, h3]

theorem starG_back1 {k : List Char → Option α} {t : Char → Bool} {c : Char}
    {v : List Char} {r : α} (hc : t c = true) (hv : headStop t v)
    (h1 : k v = none) (h2 : k (c :: v) = some r) : starGrun t k (c :: v) = some r := by
  simp [starGrun, hc, starG_stop hv, h1, h2]

theorem plus_cons {k : List Char → Option α} {t : Char → Bool} {c : Char} {s : List Char}
    (hc : t c = true) : plusRun t k (c :: s) = starGrun t k s := by
  simp [plusRun, hc]

theorem plus_fail {k : List Char → Option α} {t : Char → Bool} {c : Char} {s : List Char}
    (hc : t c = false) : plusRun t k (c :: s) = none := by
  simp [plusRun, hc]

theorem scanFirst_skip {f : List Char → Option α} {u v : List Char}
    (h : ∀ u₁ d, u₁ ++ d = u → d ≠ [] → f (d ++ v) = none) :
    scanFirst f (u ++ v) = scanFirst f v := by
  induction u with
  | nil => rfl
  | cons c cs ih =>
    have h0 : f (c :: (cs ++ v)) = none := by
      have := h [] (c :: cs) rfl (by simp)
      simpa using this
    have hstep : scanFirst f (c :: (cs ++ v)) =
        (match f (c :: (cs ++ v)) with
          | some r => some r
          | none => scanFirst f (cs ++ v)) := rfl
    rw [List.cons_append, hstep, h0]
    exact ih (fun u₁ d hu hd => h (c :: u₁) d (by simp [← hu]) hd)

theorem scanFirst_hit {f : List Char → Option α} {s : List Char} {r : α}
    (h : f s = some r) : scanFirst f s = some r := by
  cases s with
  | nil => simpa [scanFirst] using h
  | cons c cs => simp [scanFirst, h]

theorem gmatchAux_of_none {s : List Char} (h : findFirstO s = none) (n : Nat) :
    gmatchAux n s = [] := by
  cases n with
  | zero => rfl
  | succ m => simp [gmatchAux, h]

theorem gmatchAux_step {s s₀ rest : List Char} {n : Nat}
    (h : findFirstO s = some (s₀, rest)) (hlt : rest.length < s₀.length) :
    gmatchAux (n + 1) s = s₀.take (s₀.length - rest.length) :: gmatchAux n rest := by
  have hne : ¬ (s₀.length - rest.length = 0) := by omega
  simp [gmatchAux, h, hne]

theorem headNotSpace_reverse_suffix {u d l : List Char} (h : u ++ d = l) (hd : d ≠ [])
    (hl : headNotSpace l.reverse = true) : headNotSpace d.reverse = true := by
  subst h
  cases hdr : d.reverse with
  | nil =>
    rw [List.reverse_eq_nil_iff] at hdr
    exact absurd hdr hd
  | cons x xs =>
    rw [List.reverse_append, hdr] at hl
    simpa [headNotSpace] using hl

theorem not_all_space_of_last {cs : List Char} (hcs : cs ≠ [])
    (hlast : headNotSpace cs.reverse = true)
    (hall : ∀ x ∈ cs, jsSpace x = true) : False := by
  cases hcr : cs.reverse with
  | nil =>
    rw [List.reverse_eq_nil_iff] at hcr
    exact hcs hcr
  | cons x xs =>
    have hmem : x ∈ cs := by
      have h1 : x ∈ cs.reverse := by rw [hcr]; simp
      simpa [List.mem_reverse] using h1
    rw [hcr] at hlast
    simp [headNotSpace, hall x hmem] at hlast

/-- Failure of the `\s+returns` continuation of the outer pattern at every proper
split point inside a well-formed parameter span: this is what makes the lazy
parameter group stop exactly at the end of the span. -/
theorem paramSkip {params : List Char} (w : List Char)
    (hlast : headNotSpace params.reverse = true)
    (hret : containsSeq returnsWord params = false)
    (u₁ d : List Char) (hud : u₁ ++ d = params) (hd : d ≠ []) :
    opParamSp (d ++ ' ' :: w) = none := by
  cases d with
  | nil => exact absurd rfl hd
  | cons c cs =>
    cases hc : jsSpace c with
    | false =>
      show plusRun jsSpace opRetLit ((c :: cs) ++ ' ' :: w) = none
      rw [show (c :: cs) ++ ' ' :: w = c :: (cs ++ ' ' :: w) from rfl]
      exact plus_fail hc
    | true =>
      have hcs : cs ≠ [] := by
        rintro rfl
        have h1 := headNotSpace_reverse_suffix hud (by simp) hlast
        simp [headNotSpace, hc] at h1
      have hcslast : headNotSpace cs.reverse = true := by
        refine headNotSpace_reverse_suffix (u := u₁ ++ [c]) (l := params) ?_ hcs hlast
        rw [← hud]
        simp
      have hG : starGrun jsSpace opRetLit (cs ++ ' ' :: w) = none := by
        apply starG_none
        intro u' v' hsplit hall
        by_cases hle : u'.length ≤ cs.length
        · have hv' : v' = cs.drop u'.length ++ ' ' :: w := by
            have h1 : (u' ++ v').drop u'.length = (cs ++ ' ' :: w).drop u'.length :=
              congrArg (List.drop u'.length) hsplit
            rw [List.drop_left] at h1
            rw [List.drop_append_of_le_length hle] at h1
            exact h1
          by_cases hd2 : cs.drop u'.length = []
          · have hlen2 : cs.length ≤ u'.length := by
              simpa using List.drop_eq_nil_iff.mp hd2
            have heq : u'.length = cs.length := le_antisymm hle hlen2
            have hcs_eq : u' = cs := by
              have h1 : (u' ++ v').take u'.length = (cs ++ ' ' :: w).take u'.length :=
                congrArg (List.take u'.length) hsplit
              rw [List.take_left] at h1
              rw [heq, List.take_left] at h1
              exact h1
            exact (not_all_space_of_last hcs hcslast
              (fun x hx => hall x (by rw [hcs_eq]; exact hx))).elim
          · rw [hv']
            by_cases hpre : returnsWord.isPrefixOf (cs.drop u'.length ++ ' ' :: w) = true
            · have hpd2 : returnsWord.isPrefixOf (cs.drop u'.length) = true :=
                boundary_no (by decide) hd2 hpre
              have hsuf : (u₁ ++ c :: cs.take u'.length) ++ cs.drop u'.length = params := by
                rw [← hud]
                simp [List.append_assoc]
              have hcontra := containsSeq_of_suffix hsuf hpd2
              rw [hret] at hcontra
              exact absurd hcontra (by simp)
            · show litP returnsWord opRetSp (cs.drop u'.length ++ ' ' :: w) = none
              exact litP_not (Bool.eq_false_iff.mpr hpre) _
        · have hcs_sub : ∀ x ∈ cs, jsSpace x = true := by
            intro x hx
            apply hall
            have h1 : (u' ++ v').take cs.length = (cs ++ ' ' :: w).take cs.length :=
              congrArg (List.take cs.length) hsplit
            rw [List.take_left] at h1
            have hle2 : cs.length ≤ u'.length := by omega
            rw [List.take_append_of_le_length hle2] at h1
            rw [← h1] at hx
            exact List.take_subset _ _ hx
          exact (not_all_space_of_last hcs hcslast hcs_sub).elim
      show plusRun jsSpace opRetLit ((c :: cs) ++ ' ' :: w) = none
      rw [show (c :: cs) ++ ' ' :: w = c :: (cs ++ ' ' :: w) from rfl]
      rw [plus_cons hc]
      exact hG

/-- The outer pattern applied at the start of a well-formed block consumes
exactly the block: the backtracking search's first success ends right after
the return-type identifier, provided the rest of the input does not begin with
a word character. -/
theorem opMatch_block (b : Block) (R : List Char) (hb : WFb b = true)
    (hR : headStop jsWord R) : opMatch (renderR b R) = some R := by
  simp only [WFb, Bool.and_eq_true, Bool.not_eq_true'] at hb
  obtain ⟨⟨⟨⟨⟨⟨⟨hbody, hnameNE⟩, hnameW⟩, hphead⟩, hplast⟩, hpret⟩, hrtyNE⟩, hrtyW⟩ := hb
  have hnameW' : ∀ x ∈ b.name, jsWord x = true := by
    intro x hx
    exact List.all_eq_true.mp hnameW x hx
  have hrtyW' : ∀ x ∈ b.rty, jsWord x = true := by
    intro x hx
    exact List.all_eq_true.mp hrtyW x hx
  obtain ⟨n₀, nt, hn⟩ : ∃ a l, b.name = a :: l := by
    cases hcase : b.name with
    | nil => rw [hcase] at hnameNE; simp at hnameNE
    | cons a l => exact ⟨a, l, rfl⟩
  obtain ⟨r₀, rt, hr⟩ : ∃ a l, b.rty = a :: l := by
    cases hcase : b.rty with
    | nil => rw [hcase] at hrtyNE; simp at hrtyNE
    | cons a l => exact ⟨a, l, rfl⟩
  obtain ⟨p₀, pt, hp⟩ : ∃ a l, b.params = a :: l := by
    cases hcase : b.params with
    | nil => rw [hcase] at hphead; simp [headNotSpace] at hphead
    | cons a l => exact ⟨a, l, rfl⟩
  have hn₀ : jsWord n₀ = true := hnameW' n₀ (by rw [hn]; simp)
  have hr₀ : jsWord r₀ = true := hrtyW' r₀ (by rw [hr]; simp)
  have hp₀ : jsSpace p₀ = false := by
    rw [hp] at hphead
    simpa [headNotSpace] using hphead
  have h1 : opRty (b.rty ++ R) = some R := by
    show plusRun jsWord opEnd (b.rty ++ R) = some R
    rw [hr, show (r₀ :: rt) ++ R = r₀ :: (rt ++ R) from rfl, plus_cons hr₀]
    exact starG_exact (fun x hx => hrtyW' x (by rw [hr]; simp [hx])) hR rfl
  have h2 : opRetSp (' ' :: (b.rty ++ R)) = some R := by
    show plusRun jsSpace opRty (' ' :: (b.rty ++ R)) = some R
    rw [plus_cons (by decide)]
    have hstop : headStop jsSpace (b.rty ++ R) := by
      rw [hr]
      exact Or.inr ⟨r₀, rt ++ R, rfl, jsWord_not_space hr₀⟩
    rw [starG_stop hstop]
    exact h1
  have h3 : opRetLit (tail4 b R) = some R := by
    show litP returnsWord opRetSp (returnsWord ++ (' ' :: (b.rty ++ R))) = some R
    rw [litP_append]
    exact h2
  have h4 : opParamSp (' ' :: tail4 b R) = some R := by
    show plusRun jsSpace opRetLit (' ' :: tail4 b R) = some R
    rw [plus_cons (by decide)]
    have hstop : headStop jsSpace (tail4 b R) :=
      Or.inr ⟨'r', _, rfl, by decide⟩
    rw [starG_stop hstop]
    exact h3
  have h5 : opParams (tail3 b R) = some R := by
    show starLrun anyc opParamSp (b.params ++ (' ' :: tail4 b R)) = some R
    have hrw : starLrun anyc opParamSp (b.params ++ (' ' :: tail4 b R)) =
        starLrun anyc opParamSp (' ' :: tail4 b R) :=
      starL_skip (fun x _ => rfl)
        (fun u₁ d hud hd => paramSkip (tail4 b R) hplast hpret u₁ d hud hd)
    rw [hrw]
    exact starL_hit h4
  have h6 : opTakesSp (' ' :: tail3 b R) = some R := by
    show plusRun jsSpace opParams (' ' :: tail3 b R) = some R
    rw [plus_cons (by decide)]
    have hstop : headStop jsSpace (tail3 b R) := by
      rw [tail3, hp]
      exact Or.inr ⟨p₀, _, rfl, hp₀⟩
    rw [starG_stop hstop]
    exact h5
  have h7 : opTakes (tail2 b R) = some R := by
    show litP takesWord opTakesSp (takesWord ++ (' ' :: tail3 b R)) = some R
    rw [litP_append]
    exact h6
  have h8 : opNameSp (' ' :: tail2 b R) = some R := by
    show plusRun jsSpace opTakes (' ' :: tail2 b R) = some R
    rw [plus_cons (by decide)]
    have hstop : headStop jsSpace (tail2 b R) :=
      Or.inr ⟨'t', _, rfl, by decide⟩
    rw [starG_stop hstop]
    exact h7
  have h9 : opNameW (tail1 b R) = some R := by
    show plusRun jsWord opNameSp (b.name ++ (' ' :: tail2 b R)) = some R
    rw [hn, show (n₀ :: nt) ++ (' ' :: tail2 b R) = n₀ :: (nt ++ (' ' :: tail2 b R)) from rfl,
      plus_cons hn₀]
    refine starG_exact (fun x hx => hnameW' x (by rw [hn]; simp [hx])) ?_ h8
    exact Or.inr ⟨' ', _, rfl, by decide⟩
  have h10 : opNatSp (' ' :: tail1 b R) = some R := by
    show plusRun jsSpace opNameW (' ' :: tail1 b R) = some R
    rw [plus_cons (by decide)]
    have hstop : headStop jsSpace (tail1 b R) := by
      rw [tail1, hn]
      exact Or.inr ⟨n₀, _, rfl, jsWord_not_space hn₀⟩
    rw [starG_stop hstop]
    exact h9
  have h11 : opNat ('\n' :: tail0 b R) = some R := by
    show litP nlNative opNatSp ('\n' :: tail0 b R) = some R
    rw [show '\n' :: tail0 b R = nlNative ++ (' ' :: tail1 b R) from rfl, litP_append]
    exact h10
  have h12 : opWs ('\n' :: tail0 b R) = some R := by
    show starGrun jsSpace opNat ('\n' :: tail0 b R) = some R
    refine starG_back1 (by decide) ?_ ?_ h11
    · exact Or.inr ⟨'n', _, rfl, by decide⟩
    · show litP nlNative opNatSp (tail0 b R) = none
      apply litP_not
      rw [show tail0 b R = 'n' :: (['a', 't', 'i', 'v', 'e'] ++ (' ' :: tail1 b R)) from rfl]
      rw [show nlNative = '\n' :: natWord from rfl]
      simp [List.isPrefixOf]
  have h13 : opClose (starSlash ++ ('\n' :: tail0 b R)) = some R := by
    show litP starSlash opWs (starSlash ++ ('\n' :: tail0 b R)) = some R
    rw [litP_append]
    exact h12
  have h14 : opBody (b.body ++ (starSlash ++ ('\n' :: tail0 b R))) = some R := by
    show starLrun anyc opClose (b.body ++ (starSlash ++ ('\n' :: tail0 b R))) = some R
    have hskip : ∀ u₁ d, u₁ ++ d = b.body → d ≠ [] →
        opClose (d ++ (starSlash ++ ('\n' :: tail0 b R))) = none := by
      intro u₁ d hud hd
      show litP starSlash opWs (d ++ (starSlash ++ ('\n' :: tail0 b R))) = none
      apply litP_not
      by_cases hpre :
          starSlash.isPrefixOf (d ++ (starSlash ++ ('\n' :: tail0 b R))) = true
      · exfalso
        have hpre2 : starSlash.isPrefixOf (d ++ '*' :: ('/' :: ('\n' :: tail0 b R))) = true := by
          rw [show '*' :: ('/' :: ('\n' :: tail0 b R)) =
            starSlash ++ ('\n' :: tail0 b R) from rfl]
          exact hpre
        have hpd : starSlash.isPrefixOf d = true := boundary_no (by decide) hd hpre2
        have hcontra := containsSeq_of_suffix hud hpd
        rw [hbody] at hcontra
        exact absurd hcontra (by simp)
      · exact Bool.eq_false_iff.mpr hpre
    have hrw : starLrun anyc opClose (b.body ++ (starSlash ++ ('\n' :: tail0 b R))) =
        starLrun anyc opClose (starSlash ++ ('\n' :: tail0 b R)) :=
      starL_skip (fun x _ => rfl) hskip
    rw [hrw]
    exact starL_hit h13
  show litP slashStarStar opBody (renderR b R) = some R
  rw [show renderR b R =
    slashStarStar ++ (b.body ++ (starSlash ++ ('\n' :: tail0 b R))) from rfl]
  rw [litP_append]
  exact h14

theorem renderR_ne_nil (b : Block) (R : List Char) : renderR b R ≠ [] := by
  simp [renderR, slashStarStar]

theorem render_append (b : Block) (R : List Char) : render b ++ R = renderR b R := by
  simp [render, renderR, List.append_assoc]

theorem findFirstO_nil : findFirstO [] = none := rfl

theorem findFirstO_block (b : Block) (R : List Char) (hb : WFb b = true)
    (hR : headStop jsWord R) : findFirstO (renderR b R) = some (renderR b R, R) := by
  apply scanFirst_hit
  rw [opMatch_block b R hb hR]
  rfl

theorem gmatch_single (b : Block) (hb : WFb b = true) :
    gmatchO (render b) = [render b] := by
  have hm : findFirstO (render b) = some (render b, []) :=
    findFirstO_block b [] hb (Or.inl rfl)
  have hne : render b ≠ [] := renderR_ne_nil b []
  have hlen : 0 < (render b).length := List.length_pos.mpr hne
  show gmatchAux ((render b).length + 1) (render b) = [render b]
  rw [gmatchAux_step hm (by simpa using hlen)]
  rw [gmatchAux_of_none findFirstO_nil]
  simp

theorem parseChars_single (b : Block) (hb : WFb b = true) :
    parseChars (render b) = [mkEntry (render b)] := by
  show (gmatchO (render b)).map mkEntry = _
  rw [gmatch_single b hb]
  rfl

theorem parse_singleS (b : Block) (hb : WFb b = true) :
    parseApiDocumentation [renderS b] = [mkEntry (render b)] := by
  show parseChars (joinTexts [renderS b]).data = _
  rw [show joinTexts [renderS b] = renderS b from rfl]
  rw [show (renderS b).data = render b from rfl]
  exact parseChars_single b hb

theorem gmatch_double (b1 b2 : Block) (h1 : WFb b1 = true) (h2 : WFb b2 = true) :
    gmatchO (render b1 ++ '\n' :: render b2) = [render b1, render b2] := by
  have hW : headStop jsWord ('\n' :: render b2) :=
    Or.inr ⟨'\n', render b2, rfl, by decide⟩
  have hm1 : findFirstO (render b1 ++ '\n' :: render b2) =
      some (render b1 ++ '\n' :: render b2, '\n' :: render b2) := by
    have h := findFirstO_block b1 ('\n' :: render b2) h1 hW
    rw [← render_append] at h
    exact h
  have hf : opMatch ('\n' :: render b2) = none := by
    apply litP_not
    rw [show slashStarStar = '/' :: ['*', '*'] from rfl]
    simp [List.isPrefixOf]
  have hm2 : findFirstO ('\n' :: render b2) = some (render b2, []) := by
    have hstep : findFirstO ('\n' :: render b2) =
        (match (opMatch ('\n' :: render b2)).map (fun r => (('\n' :: render b2), r)) with
          | some r => some r
          | none => findFirstO (render b2)) := rfl
    rw [hstep, hf]
    show findFirstO (render b2) = _
    exact findFirstO_block b2 [] h2 (Or.inl rfl)
  have hL1pos : 0 < (render b1).length := List.length_pos.mpr (renderR_ne_nil b1 [])
  have hL2pos : 0 < (render b2).length := List.length_pos.mpr (renderR_ne_nil b2 [])
  show gmatchAux ((render b1 ++ '\n' :: render b2).length + 1)
    (render b1 ++ '\n' :: render b2) = [render b1, render b2]
  rw [gmatchAux_step hm1 (by simpa using hL1pos)]
  have htake1 : (render b1 ++ '\n' :: render b2).take
      ((render b1 ++ '\n' :: render b2).length - ('\n' :: render b2).length) = render b1 := by
    have hl : (render b1 ++ '\n' :: render b2).length - ('\n' :: render b2).length =
        (render b1).length := by
      simp
    rw [hl, List.take_left]
  rw [htake1]
  have hfuel : (render b1 ++ '\n' :: render b2).length =
      ((render b1).length + (render b2).length) + 1 := by
    simp
    omega
  rw [hfuel]
  rw [gmatchAux_step hm2 (by simpa using hL2pos)]
  rw [gmatchAux_of_none findFirstO_nil]
  simp

theorem parse_doubleS (b1 b2 : Block) (h1 : WFb b1 = true) (h2 : WFb b2 = true) :
    parseApiDocumentation [renderS b1 ++ "\n" ++ renderS b2] =
      [mkEntry (render b1), mkEntry (render b2)] := by
  show parseChars (joinTexts [renderS b1 ++ "\n" ++ renderS b2]).data = _
  rw [show joinTexts [renderS b1 ++ "\n" ++ renderS b2] =
    renderS b1 ++ "\n" ++ renderS b2 from rfl]
  have hdata : (renderS b1 ++ "\n" ++ renderS b2).data =
      render b1 ++ '\n' :: render b2 := by
    simp [renderS, String.data_append]
  rw [hdata]
  show (gmatchO (render b1 ++ '\n' :: render b2)).map mkEntry = _
  rw [gmatch_double b1 b2 h1 h2]
  rfl

/-- C2: an input of two consecutive well-formed blocks yields exactly the two
entries that the blocks yield alone: the non-greedy matching does not merge
adjacent blocks. -/
theorem c2_two_blocks (b1 b2 : Block) (h1 : WFb b1 = true) (h2 : WFb b2 = true) :
    parseApiDocumentation [renderS b1 ++ "\n" ++ renderS b2] =
      parseApiDocumentation [renderS b1] ++ parseApiDocumentation [renderS b2] ∧
    (parseApiDocumentation [renderS b1]).length = 1 ∧
    (parseApiDocumentation [renderS b2]).length = 1 := by
  have hs1 := parse_singleS b1 h1
  have hs2 := parse_singleS b2 h2
  refine ⟨?_, ?_, ?_⟩
  · rw [parse_doubleS b1 b2 h1 h2, hs1, hs2]
    rfl
  · rw [hs1]
    rfl
  · rw [hs2]
    rfl

/-- Witness for C2 at two concrete well-formed blocks. -/
theorem c2_two_blocks_witness :
    WFb blockA = true ∧ WFb blockB = true ∧
    parseApiDocumentation [renderS blockA ++ "\n" ++ renderS blockB] =
      parseApiDocumentation [renderS blockA] ++ parseApiDocumentation [renderS blockB] :=
  ⟨by decide, by decide, (c2_two_blocks blockA blockB (by decide) (by decide)).1⟩

theorem takeWhile_append_stop {u : List Char} {c : Char} {w : List Char}
    (hu : ∀ x ∈ u, jsWord x = true) (hc : jsWord c = false) :
    (u ++ c :: w).takeWhile jsWord = u := by
  induction u with
  | nil => simp [List.takeWhile_cons, hc]
  | cons a as ih =>
    simp [List.takeWhile_cons, hu a (by simp),
      ih (fun x hx => hu x (by simp [hx]))]

/-- On a block whose doc-comment part contains no occurrence of `native`, the
leftmost match of the inner name pattern starts at the `native` keyword of the
declaration, and its group captures exactly the declared name. -/
theorem findNp_block (b : Block) (hbn : WFn b = true) :
    findNp (render b) = some b.name := by
  simp only [WFn, Bool.and_eq_true, Bool.not_eq_true'] at hbn
  obtain ⟨hb, hpre⟩ := hbn
  simp only [WFb, Bool.and_eq_true, Bool.not_eq_true'] at hb
  obtain ⟨⟨⟨⟨⟨⟨⟨hbody, hnameNE⟩, hnameW⟩, hphead⟩, hplast⟩, hpret⟩, hrtyNE⟩, hrtyW⟩ := hb
  have hnameW' : ∀ x ∈ b.name, jsWord x = true := by
    intro x hx
    exact List.all_eq_true.mp hnameW x hx
  obtain ⟨n₀, nt, hn⟩ : ∃ a l, b.name = a :: l := by
    cases hcase : b.name with
    | nil => rw [hcase] at hnameNE; simp at hnameNE
    | cons a l => exact ⟨a, l, rfl⟩
  have hn₀ : jsWord n₀ = true := hnameW' n₀ (by rw [hn]; simp)
  have hsplit : preB b ++ tail0 b [] = render b := by
    simp [preB, render, renderR, tail0, tail1, tail2, tail3, tail4, List.append_assoc]
  rw [← hsplit]
  show scanFirst npAt (preB b ++ tail0 b []) = some b.name
  have hskip : ∀ u₁ d, u₁ ++ d = preB b → d ≠ [] → npAt (d ++ tail0 b []) = none := by
    intro u₁ d hud hd
    show litP natWord (plusRun jsSpace npGrab) (d ++ tail0 b []) = none
    apply litP_not
    by_cases hp : natWord.isPrefixOf (d ++ tail0 b []) = true
    · exfalso
      have hp2 : natWord.isPrefixOf
          (d ++ 'n' :: (['a', 't', 'i', 'v', 'e'] ++ (' ' :: tail1 b []))) = true := by
        rw [show 'n' :: (['a', 't', 'i', 'v', 'e'] ++ (' ' :: tail1 b [])) =
          tail0 b [] from rfl]
        exact hp
      have hpd : natWord.isPrefixOf d = true := boundary_no (by decide) hd hp2
      have hcontra := containsSeq_of_suffix hud hpd
      rw [hpre] at hcontra
      exact absurd hcontra (by simp)
    · exact Bool.eq_false_iff.mpr hp
  have hrw : scanFirst npAt (preB b ++ tail0 b []) = scanFirst npAt (tail0 b []) :=
    scanFirst_skip hskip
  rw [hrw]
  apply scanFirst_hit
  show litP natWord (plusRun jsSpace npGrab) (tail0 b []) = some b.name
  rw [show tail0 b [] = natWord ++ (' ' :: tail1 b []) from rfl, litP_append]
  rw [plus_cons (by decide)]
  have hstop : headStop jsSpace (tail1 b []) := by
    rw [tail1, hn]
    exact Or.inr ⟨n₀, _, rfl, jsWord_not_space hn₀⟩
  rw [starG_stop hstop]
  show npGrab (b.name ++ (' ' :: tail2 b [])) = some b.name
  have htw : (b.name ++ ' ' :: tail2 b []).takeWhile jsWord = b.name :=
    takeWhile_append_stop hnameW' (by decide)
  simp only [npGrab, htw]
  rw [hn]
  simp

/-- C3 counterexample: when the doc comment itself contains the word `native`,
the extracted name is the identifier following that FIRST occurrence, not the
declared function's name (`Bar` here). -/
theorem c3_name_counterexample :
    (parseApiDocumentation
        ["/** see native Foo */\nnative Bar takes nothing returns nothing"]).map
      ApiEntry.name = ["Foo"] ∧ ("Foo" : String) ≠ "Bar" := by
  decide

/-- C3 amended: for a well-formed block whose doc-comment part contains no
occurrence of `native`, the extracted name IS the declared function's name;
in general the extractor takes the identifier after the first occurrence of
`native` in the whole block. -/
theorem c3_name_amended (b : Block) (hbn : WFn b = true) :
    (parseApiDocumentation [renderS b]).map ApiEntry.name = [String.mk b.name] := by
  have hb : WFb b = true := by
    simp only [WFn, Bool.and_eq_true] at hbn
    exact hbn.1
  have hnameNE : b.name.isEmpty = false := by
    simp only [WFb, Bool.and_eq_true, Bool.not_eq_true'] at hb
    exact hb.1.1.1.1.1.1.2
  rw [parse_singleS b hb]
  simp [mkEntry, extractName, findNp_block b hbn, hnameNE]

/-- Witness for the amended C3 at a concrete block. -/
theorem c3_name_amended_witness :
    WFn blockA = true ∧
    (parseApiDocumentation [renderS blockA]).map ApiEntry.name =
      [String.mk "FooBar".data] :=
  ⟨by decide, c3_name_amended blockA (by decide)⟩
